import Mathlib

/-!
# Verification of the `H5_Nested_Store` engine (`src/zarr_stores/h5_nested_store.py`)

Shallow embedding of the hybrid sharded zarr store.  The on-disk state is
modelled as a flat finite map from absolute paths (lists of path segments,
`[]` standing for the filesystem root `/`) to files, together with an
explicit set of existing directories.  A file is either a plain ("raw")
file holding bytes, or an HDF5 shard container holding a flat namespace of
named byte entries.  Byte strings are lists of naturals.

Modelling conventions, stated once here and referenced from the
definitions below:
* Enumeration order of `os.walk`/`os.scandir` is OS-dependent; the model
  enumerates `FS.files`/`FS.dirs` in list order.  No claim settled here
  depends on enumeration order.
* Reading a shard-container file through the plain-file API (`open(fn,'rb')`)
  returns the container's HDF5 serialization; `encodeContainer` stands in
  for that opaque byte string.
* The distributed-lock code paths (`distribuited_lock=True`) concern
  cross-process concurrency and are outside this sequential model; the
  embedding fixes `self.distribuited = False` (its default).
* `zarr.util.normalize_storage_path` and `ensure_contiguous_ndarray_like`
  are external to the repository; paths enter the model as canonical
  segment lists and values as byte lists, so both are identities here.
-/

namespace H5NS

/-- An absolute filesystem path as a list of segments; `[]` is `/`. -/
abbrev Path := List String

/-- A byte string. -/
abbrev Bytes := List Nat

/-- Last segment of a path, `""` for the empty path.  Mirrors the `last`
component returned by `os.path.split` (which yields `''` at the root). -/
def lastSeg (p : Path) : String := (p.getLast?).getD ""

/-- `hasLead q pre` : `q` starts with the segments of `pre` (so `q` is `pre`
itself or lies below it). -/
def hasLead (q pre : Path) : Bool := decide (q.take pre.length = pre)

/-- `isUnder q pre` : `q` lies strictly below directory `pre`. -/
def isUnder (q pre : Path) : Bool := decide (pre.length < q.length) && hasLead q pre

/-- A file on disk: a plain byte file, or an HDF5 shard container holding
named byte entries (`h5py` datasets, keys in insertion order). -/
inductive File where
  | raw (content : Bytes)
  | h5 (entries : List (String × Bytes))
deriving DecidableEq

/-- Filesystem state: association list of files by absolute path, plus the
set (list) of existing directories.  `/` itself always exists. -/
structure FS where
  files : List (Path × File)
  dirs : List Path
deriving DecidableEq

/-- Association-list lookup for files by path. -/
def lookupF : List (Path × File) → Path → Option File
  | [], _ => none
  | (q, f) :: rest, p => if q = p then some f else lookupF rest p

/-- Association-list insert/replace for files (append at end when new). -/
def setF : List (Path × File) → Path → File → List (Path × File)
  | [], p, f => [(p, f)]
  | (q, g) :: rest, p, f => if q = p then (p, f) :: rest else (q, g) :: setF rest p f

/-- Association-list delete for files. -/
def delF : List (Path × File) → Path → List (Path × File)
  | [], _ => []
  | (q, g) :: rest, p => if q = p then delF rest p else (q, g) :: delF rest p

/-- Lookup of a dataset inside a container, by name. -/
def lookupE : List (String × Bytes) → String → Option Bytes
  | [], _ => none
  | (k, b) :: rest, n => if k = n then some b else lookupE rest n

/-- Insert/replace a dataset inside a container (`if key in f: del f[key]`
followed by `create_dataset`). -/
def setE : List (String × Bytes) → String → Bytes → List (String × Bytes)
  | [], n, v => [(n, v)]
  | (k, b) :: rest, n, v => if k = n then (n, v) :: rest else (k, b) :: setE rest n v

/-- Delete a dataset inside a container if present (`if h_key in f: del f[h_key]`). -/
def delE : List (String × Bytes) → String → List (String × Bytes)
  | [], _ => []
  | (k, b) :: rest, n => if k = n then delE rest n else (k, b) :: delE rest n

/-- `os.path.isfile` : a path names a file (plain or container). -/
def FS.isfile (fs : FS) (p : Path) : Bool := (lookupF fs.files p).isSome

/-- `os.path.isdir` : a path names an existing directory (`/` always does). -/
def FS.isdir (fs : FS) (p : Path) : Bool := p.isEmpty || decide (p ∈ fs.dirs)

/-- `os.path.exists`. -/
def FS.existsPath (fs : FS) (p : Path) : Bool := fs.isfile p || fs.isdir p

/-- `os.remove`. -/
def FS.removeFile (fs : FS) (p : Path) : FS :=
  { fs with files := delF fs.files p }

/-- `shutil.rmtree` : removes the directory (or file) at `p` and everything
below it. -/
def FS.rmtree (fs : FS) (p : Path) : FS :=
  { files := fs.files.filter (fun e => !(hasLead e.1 p)),
    dirs := fs.dirs.filter (fun d => !(hasLead d p)) }

/-- A file blocks creation of the directory chain down to `p`
(`os.makedirs` would raise `NotADirectoryError`/`FileExistsError`). -/
def blockedPath (fs : FS) (p : Path) : Bool :=
  (List.range p.length).any (fun i => fs.isfile (p.take (i + 1)))

/-- Add every missing directory along the chain down to `p`. -/
def FS.addDirChain (fs : FS) (p : Path) : FS :=
  { fs with dirs := fs.dirs ++ ((List.range p.length).filterMap (fun i =>
      let q := p.take (i + 1)
      if q ∈ fs.dirs then none else some q)) }

/-- `os.makedirs(p, exist_ok=True)` : `none` when a file blocks the chain
(the OSError propagates), otherwise the chain of directories exists after. -/
def FS.mkdirsExistOk (fs : FS) (p : Path) : Option FS :=
  if blockedPath fs p then none else some (fs.addDirChain p)

/-- Write a plain file at `p` (create or overwrite).  Net effect of
`_tofile` to a temp name followed by `os.replace` (lines 576-591): in this
sequential model the read-back verification of `_tofile` (lines 296-317)
compares the file against the bytes just written and exits its loop on the
first iteration, and `retry_call(os.replace, ...)` sees no
`PermissionError`.  The adversarial behaviour of that loop is modelled
separately by `tofileLoop`. -/
def FS.writeFile (fs : FS) (p : Path) (b : Bytes) : FS :=
  { fs with files := setF fs.files p (.raw b) }

/-! ## Store configuration (`H5_Nested_Store.__init__`, lines 151-202) -/

/-- Construction parameters of the store that the embedded operations
consult.  `root` is the (normalized, absolute) store path as segments;
`container_ext` is already normalized to carry a leading `'.'`
(lines 171-174); `mode_r` is `self.mode == 'r'`. -/
structure Config where
  root : Path
  normalize_keys : Bool
  write_direct : Bool
  container_ext : String
  consolidate_depth : Nat
  auto_verify_write : Bool
  mode_r : Bool
deriving DecidableEq

/-- `_normalize_key` (line 278): lowercase the key when `normalize_keys`.
Lowercasing the `'/'`-joined string equals lowercasing each segment. -/
def normKey (cfg : Config) (k : List String) : List String :=
  if cfg.normalize_keys then k.map (fun s => s.toLower) else k

/-- `c in s` on strings, via the character list (kernel-evaluable form of
`String.contains`). -/
def strHas (s : String) (c : Char) : Bool := s.toList.any (fun x => x = c)

/-- `'.' in key` (line 554): the `'/'`-joined key string contains a dot
iff some segment does. -/
def keyDot (k : List String) : Bool := k.any (fun s => strHas s '.')

/-- A key whose segments are genuine path components: nonempty, not the
relative components `.`/`..`, and free of the separator. -/
def ValidKey (k : List String) : Prop :=
  k ≠ [] ∧ ∀ s ∈ k, s ≠ "" ∧ s ≠ "." ∧ s ≠ ".." ∧ strHas s '/' = false

/-! ## Key/Path codec (`_get_archive_key_name`, lines 319-328) -/

/-- The `for _ in range(self._consolidate_depth - 2)` loop of
`_get_archive_key_name`: repeatedly split off the last path component and
prepend `'.' + last` to the accumulated key. -/
def gaknLoop : Nat → Path × String → Path × String
  | 0, st => st
  | n + 1, (p, key) => gaknLoop n (p.dropLast, "." ++ lastSeg p ++ key)

/-- `f'{path}{ext}'` : appending the extension to the path string attaches
it to the final segment (`''` + ext is the single segment `ext`). -/
def appendExt (p : Path) (ext : String) : Path :=
  match p with
  | [] => [ext]
  | _ => p.dropLast ++ [lastSeg p ++ ext]

/-- `_get_archive_key_name(path)` (lines 319-328): peel
`consolidate_depth - 2` trailing segments into a `'.'`-joined key, peel one
more segment to head that key, and append the container extension to what
remains to name the shard container. -/
def get_archive_key_name (depth : Nat) (ext : String) (path : Path) : Path × String :=
  let st := gaknLoop (depth - 2) (path, "")
  let key := lastSeg st.1 ++ st.2
  (appendExt st.1.dropLast ext, key)

/-! ## Container and file primitives -/

/-- Stand-in for the HDF5 on-disk serialization of a container, as read by
`open(fn, 'rb')`; its exact bytes are opaque to every claim. -/
def encodeContainer (es : List (String × Bytes)) : Bytes :=
  es.foldr (fun e acc =>
    e.1.length :: (e.1.toList.map Char.toNat) ++ (e.2.length :: e.2) ++ acc) [137]

/-- `_fromh5(archive, key)` (lines 336-344): open the container read-only
and return the named dataset's bytes; `none` covers both the `KeyError`
(name absent) and the `OSError` of opening a non-container file or a
missing path. -/
def fromh5 (fs : FS) (archive : Path) (k : String) : Option Bytes :=
  match lookupF fs.files archive with
  | some (.h5 es) => lookupE es k
  | _ => none

/-- `_read_direct_to_h5` (lines 521-539) with distributed locking disabled:
exactly `_fromh5`. -/
def read_direct_to_h5 (fs : FS) (archive : Path) (k : String) : Option Bytes :=
  fromh5 fs archive k

/-- `_toh5(archive, key, value)` (lines 346-372) in the sequential model:
open the container in append mode, replace the dataset, close.  An
`OSError` from `h5py.File` — the path holds a non-HDF5 file or a
directory, or its parent directory is missing — is swallowed by the
`except OSError: pass` and, with `auto_verify_write` off, the loop breaks:
the put is silently dropped and the state unchanged.  (With verification
on and a permanently blocked path the source loops forever; facade
theorems about that configuration therefore carry an unblocked-container
hypothesis.  The attempt-level loop is modelled by `toh5Loop`.) -/
def toh5 (fs : FS) (archive : Path) (k : String) (v : Bytes) : FS :=
  match lookupF fs.files archive with
  | some (.raw _) => fs
  | some (.h5 es) => { fs with files := setF fs.files archive (.h5 (setE es k v)) }
  | none =>
    if fs.isdir archive then fs
    else if fs.isdir archive.dropLast then
      { fs with files := setF fs.files archive (.h5 [(k, v)]) }
    else fs

/-- `_write_direct_to_h5(file_path, value)` (lines 499-519) with
distributed locking disabled: resolve the shard location, create the
container's parent directories (`exist_ok=True`; a blocking file makes the
OSError propagate, hence `none`), then `_toh5`. -/
def write_direct_to_h5 (cfg : Config) (fs : FS) (file_path : Path) (v : Bytes) :
    Option FS :=
  let ak := get_archive_key_name cfg.consolidate_depth cfg.container_ext file_path
  match fs.mkdirsExistOk ak.1.dropLast with
  | none => none
  | some fs1 => some (toh5 fs1 ak.1 ak.2 v)

/-! ## Store facade: `__getitem__`, `__setitem__`, `__delitem__`, `getsize` -/

/-- `__getitem__` (lines 464-492): normalize, try the raw file at the
key's path first (a shard container found there is read as its serialized
bytes), otherwise resolve the shard location and read the dataset; `none`
is the final `KeyError` (any error in the container read is swallowed by
`except: pass` and ends there too). -/
def getitem (cfg : Config) (fs : FS) (key : List String) : Option Bytes :=
  let k := normKey cfg key
  let fp := cfg.root ++ k
  match lookupF fs.files fp with
  | some (.raw b) => some b
  | some (.h5 es) => some (encodeContainer es)
  | none =>
    let ak := get_archive_key_name cfg.consolidate_depth cfg.container_ext fp
    if (lookupF fs.files ak.1).isSome then
      if cfg.write_direct && !cfg.mode_r then read_direct_to_h5 fs ak.1 ak.2
      else fromh5 fs ak.1 ak.2
    else none

/-- Result of `__setitem__`: the new state, or the `KeyError`/`OSError`
raised before anything was written. -/
inductive SetRes where
  | ok (fs : FS)
  | keyErr
deriving DecidableEq

/-- The guard of the direct-write branch of `__setitem__` (line 554):
direct writes are enabled, the (normalized) key contains no `'.'`
anywhere, and no file occupies the key's path. -/
def directCond (cfg : Config) (fs : FS) (key : List String) : Bool :=
  cfg.write_direct && !keyDot (normKey cfg key)
    && !(fs.isfile (cfg.root ++ normKey cfg key))

/-- `__setitem__` (lines 541-591): on the direct branch, write the value
into the shard container; otherwise mimic a `NestedDirectoryStore` —
remove a directory in the way, refuse (`KeyError`) when the parent path is
a file or cannot be created, ensure the parent directory chain, and write
the file atomically (`FS.writeFile`). -/
def setitem (cfg : Config) (fs : FS) (key : List String) (v : Bytes) : SetRes :=
  let k := normKey cfg key
  let fp := cfg.root ++ k
  if directCond cfg fs key then
    match write_direct_to_h5 cfg fs fp v with
    | none => .keyErr
    | some fs' => .ok fs'
  else
    let fs1 := if fs.isdir fp then fs.rmtree fp else fs
    let dp := fp.dropLast
    if fs1.isfile dp then .keyErr
    else
      match (if fs1.existsPath dp then some fs1 else fs1.mkdirsExistOk dp) with
      | none => .keyErr
      | some fs2 => .ok (fs2.writeFile fp v)

/-- Outcome of `__delitem__`: no error, the final `KeyError(key)`, or the
uncaught `OSError` of `h5py.File` opening a non-container file. -/
inductive DelRes where
  | ok
  | keyErr
  | osErr
deriving DecidableEq

/-- `__delitem__` (lines 593-622): remove a raw file (or directory tree) at
the key's path if present; then, if the shard container file exists, open
it and delete the mapped dataset if present; otherwise raise
`KeyError(key)` — regardless of whether the first step removed anything. -/
def delitem (cfg : Config) (fs : FS) (key : List String) : FS × DelRes :=
  let k := normKey cfg key
  let p := cfg.root ++ k
  let fs1 :=
    if fs.isfile p then fs.removeFile p
    else if fs.isdir p then fs.rmtree p
    else fs
  let ak := get_archive_key_name cfg.consolidate_depth cfg.container_ext p
  match lookupF fs1.files ak.1 with
  | some (.h5 es) =>
      ({ fs1 with files := setF fs1.files ak.1 (.h5 (delE es ak.2)) }, .ok)
  | some (.raw _) => (fs1, .osErr)
  | none => (fs1, .keyErr)

/-- Sum of `child.stat().st_size` over the immediate children of `p` that
are files (`os.scandir` loop of `getsize`); a shard container is a single
file whose on-disk size the model does not know, so it is supplied by
`csz`. -/
def childSizes (csz : List (String × Bytes) → Nat) (files : List (Path × File))
    (p : Path) : Nat :=
  (files.filterMap (fun e =>
    if e.1.length = p.length + 1 ∧ hasLead e.1 p = true then
      some (match e.2 with | .raw b => b.length | .h5 es => csz es)
    else none)).sum

/-- `getsize(path)` (lines 745-759): size of the file at the path, or the
sum over the path's immediate children that are files, else 0.
(`normalize_storage_path` is the identity on canonical segment lists.) -/
def getsize (cfg : Config) (csz : List (String × Bytes) → Nat) (fs : FS)
    (p : List String) : Nat :=
  let fp := cfg.root ++ p
  match lookupF fs.files fp with
  | some (.raw b) => b.length
  | some (.h5 es) => csz es
  | none => if fs.isdir fp then childSizes csz fs.files fp else 0

/-! ## Consolidation (`_arrays`, `get_unique_archive_locations`,
`_migrate_path_to_archive`, `consolidate`, lines 205-217 and 384-461) -/

/-- `'.z' in f` (line 395): the filename contains the two-character
substring `".z"`. -/
def charsDotZ : List Char → Bool
  | '.' :: 'z' :: _ => true
  | _ :: rest => charsDotZ rest
  | [] => false

/-- Substring test `'.z' in f` on a filename. -/
def nameHasDotZ (s : String) : Bool := charsDotZ s.toList

/-- `os.path.splitext` on a single filename: split off the suffix starting
at the last `'.'`, unless every character before that dot is itself a dot
(so `'.zarray'` has no extension). -/
def splitextSeg (s : String) : String × String :=
  let rev := s.toList.reverse
  let extRev := rev.takeWhile (fun c => !(c == '.'))
  match rev.dropWhile (fun c => !(c == '.')) with
  | [] => (s, "")
  | _ :: stemRev =>
    if stemRev.any (fun c => !(c == '.')) then
      (String.mk stemRev.reverse, String.mk ('.' :: extRev.reverse))
    else (s, "")

/-- `os.path.splitext(unique)[0]` (line 440) applied to a path: strip the
extension from the final segment. -/
def splitextStem (p : Path) : Path :=
  match p with
  | [] => []
  | _ => p.dropLast ++ [(splitextSeg (lastSeg p)).1]

/-- `self._arrays` (lines 205-217): the store root itself when `.zarray`
is a file directly under it; otherwise every directory strictly below the
root under which `.zarray` exists (`os.walk` visits every directory as a
child of its parent; `os.path.exists` is the test used). -/
def arraysOf (cfg : Config) (fs : FS) : List Path :=
  if fs.isfile (cfg.root ++ [".zarray"]) then [cfg.root]
  else (fs.dirs.filter (fun d => isUnder d cfg.root)).filter
    (fun d => fs.existsPath (d ++ [".zarray"]))

/-- All file paths strictly below `p`, in model enumeration order
(the files yielded by `os.walk(p)`). -/
def filesUnder (fs : FS) (p : Path) : List Path :=
  fs.files.filterMap (fun e => if isUnder e.1 p then some e.1 else none)

/-- First-occurrence deduplication (the `unique_archive_locations` dict of
lines 385-401). -/
def dedupAux : List Path → List Path → List Path
  | _, [] => []
  | seen, a :: rest =>
    if a ∈ seen then dedupAux seen rest else a :: dedupAux (a :: seen) rest

/-- `get_unique_archive_locations` (lines 385-401): over every array root,
every file strictly below it whose name does not contain `'.z'` and whose
depth relative to the array root exceeds `consolidate_depth` contributes
its computed shard-container path; duplicates are dropped.  (The generator
is interleaved with migration in the sequential branch of `consolidate`,
but `os.walk` lists each directory's files before descending, so freshly
written containers are not rescanned; the model evaluates the scan on the
initial state, which is also exactly the dask-delayed branch.) -/
def uniqueArchiveLocations (cfg : Config) (fs : FS) : List Path :=
  dedupAux [] ((arraysOf cfg fs).flatMap (fun a =>
    (filesUnder fs a).filterMap (fun fp =>
      if !nameHasDotZ (lastSeg fp)
          && decide (a.length + cfg.consolidate_depth < fp.length) then
        some (get_archive_key_name cfg.consolidate_depth cfg.container_ext fp).1
      else none)))

/-- Bytes obtained by `open(filepath, 'rb').read()` during migration. -/
def contentBytes : Option File → Bytes
  | some (.raw b) => b
  | some (.h5 es) => encodeContainer es
  | none => []

/-- `_migrate_path_to_archive(archive, path_name)` (lines 403-425): open or
create the container (`none` when `h5py.File(archive, 'a')` raises — a
non-container file or directory at the path, or no parent directory), then
for every file below `path_name` write its bytes as a dataset named by the
codec (replacing any preexisting dataset) and delete the source file. -/
def migrate (cfg : Config) (fs : FS) (archive : Path) : Option FS :=
  let path_name := splitextStem archive
  match lookupF fs.files archive with
  | some (.raw _) => none
  | _ =>
    if fs.isdir archive then none
    else if !(fs.isdir archive.dropLast) then none
    else
      let entries0 := match lookupF fs.files archive with
        | some (.h5 es) => es
        | _ => []
      let srcs := filesUnder fs path_name
      let entries := srcs.foldl (fun es fp =>
        setE es (get_archive_key_name cfg.consolidate_depth cfg.container_ext fp).2
          (contentBytes (lookupF fs.files fp))) entries0
      let fs1 := srcs.foldl (fun s fp => s.removeFile fp) fs
      some { fs1 with files := setF fs1.files archive (.h5 entries) }

/-- The empty-directory prune of `consolidate` (lines 454-461): walking an
array subtree bottom-up and removing each directory found empty at visit
time deletes exactly the directories strictly below the array root with no
file anywhere below them (empty chains collapse upward; the array root
itself is never a candidate). -/
def pruneArray (fs : FS) (a : Path) : FS :=
  { fs with dirs := fs.dirs.filter (fun d =>
      !(isUnder d a) || fs.files.any (fun e => isUnder e.1 d)) }

/-- `consolidate` (lines 427-461): migrate every unique archive location,
then prune emptied directories below every array root.  `none` propagates
an uncaught error from a migration.  (The dask-parallel branch performs
the same per-archive migrations; the model runs them in scan order.) -/
def consolidate (cfg : Config) (fs : FS) : Option FS :=
  let archives := uniqueArchiveLocations cfg fs
  match archives.foldl (fun acc ar => acc.bind (fun s => migrate cfg s ar))
      (some fs) with
  | none => none
  | some fs1 => some ((arraysOf cfg fs1).foldl (fun s a => pruneArray s a) fs1)

/-! ## Attempt-level retry loops (`_tofile` lines 296-317, `_toh5` lines
346-372) under an adversarial environment -/

/-- The `while True` loop of `_tofile` with `auto_verify_write`: each
iteration writes the bytes and, when verifying, compares `_fromfile`
against them.  `readback i` is what the file reads back as on iteration
`i` (the environment may interfere between write and read); the `Nat`
argument is fuel, `none` meaning the loop has not exited within that many
iterations, `some j` that it exited after `j` iterations in total. -/
def tofileLoop (verify : Bool) (a : Bytes) (readback : Nat → Bytes) :
    Nat → Nat → Option Nat
  | 0, _ => none
  | fuel + 1, i =>
    if verify then
      if readback i = a then some (i + 1)
      else tofileLoop verify a readback fuel (i + 1)
    else some (i + 1)

/-- The `while True` loop of `_toh5`: iteration `i` attempts the
open-and-write (`openOk i` is false when `h5py.File(archive, 'a')` raises
the `OSError` that `except OSError: pass` swallows — e.g. the container is
transiently open elsewhere); when verifying, `readback i` is the result of
the `_fromh5` read back (`none` for its `KeyError`).  Result `some (j, w)`:
the loop exited after `j` iterations and the final iteration's write
succeeded iff `w`; `none`: not yet exited within the fuel. -/
def toh5Loop (verify : Bool) (value : Bytes) (openOk : Nat → Bool)
    (readback : Nat → Option Bytes) : Nat → Nat → Option (Nat × Bool)
  | 0, _ => none
  | fuel + 1, i =>
    let wrote := openOk i
    if verify then
      match readback i with
      | some b =>
        if b = value then some (i + 1, wrote)
        else toh5Loop verify value openOk readback fuel (i + 1)
      | none => toh5Loop verify value openOk readback fuel (i + 1)
    else some (i + 1, wrote)

/-! ## Definitions taken from the specification's wording (for refutation
and refinement only; the operational definitions above come from the
source) -/

/-- Spec wording (§4.1): a metadata key is detected by a `'.'` prefix on
the final segment. -/
def specMetadataKey (k : List String) : Bool :=
  match (lastSeg k).toList with
  | '.' :: _ => true
  | _ => false

/-- Spec wording (§4.5 `getsize`): the recursive sum of the sizes of all
raw files strictly below a path. -/
def rawSizeUnderSpec (fs : FS) (p : Path) : Nat :=
  (fs.files.filterMap (fun e =>
    match e.2 with
    | File.raw b => if isUnder e.1 p then some b.length else none
    | File.h5 _ => none)).sum

/-- Spec wording (§3, claim C3): join segments with `'.'`. -/
def dotJoin : List String → String
  | [] => ""
  | [s] => s
  | s :: rest => s ++ "." ++ dotJoin rest

/-- The shard-container path can actually be opened by `h5py.File(·, 'a')`
from this state: whatever sits there is a container (or nothing), and it
is not a directory.  When this fails, `_toh5`'s `except OSError: pass`
silently discards the write (see `toh5`). -/
def archiveSafe (fs : FS) (a : Path) : Bool :=
  (match lookupF fs.files a with
   | some (File.raw _) => false
   | _ => true) && !(fs.isdir a)

/-! ## Concrete instances used in counterexamples and witnesses -/

/-- Default-flavoured configuration: store rooted at `/store`,
`write_direct=True`, extension `.h5`, depth 3, no normalization, no
verification, mode `'a'`. -/
def cfgS : Config := ⟨["store"], false, true, ".h5", 3, false, false⟩

/-- A store whose computed shard-container path `store/a/0/0.h5` is
occupied by a plain (non-HDF5) file. -/
def fsArchBlocked : FS :=
  ⟨[(["store", "a", "0", "0.h5"], File.raw [9])],
   [["store"], ["store", "a"], ["store", "a", "0"]]⟩

/-- An empty store with the directories `store/a/0` present. -/
def fsClean : FS :=
  ⟨[], [["store"], ["store", "a"], ["store", "a", "0"]]⟩

/-- `fsClean` after `set("a/0/0/1/2", [5])` took the direct-shard branch. -/
def fsAfterDirect : FS :=
  ⟨[(["store", "a", "0", "0.h5"], File.h5 [("1.2", [5])])],
   [["store"], ["store", "a"], ["store", "a", "0"]]⟩

/-- A flat store holding a single raw chunk file `a/0/0/1/2/3` and no
shard container anywhere. -/
def fsRawOnly : FS :=
  ⟨[(["store", "a", "0", "0", "1", "2", "3"], File.raw [1])],
   [["store"], ["store", "a"], ["store", "a", "0"], ["store", "a", "0", "0"],
    ["store", "a", "0", "0", "1"], ["store", "a", "0", "0", "1", "2"]]⟩

/-- A store containing only its root directory. -/
def fsRootOnly : FS := ⟨[], [["store"]]⟩

/-- A six-axis flat-file array: `.zarray` under `store/a` and one chunk
file at coordinates `0/0/0/0/0/0`. -/
def fsRank6 : FS :=
  ⟨[(["store", "a", ".zarray"], File.raw [0]),
    (["store", "a", "0", "0", "0", "0", "0", "0"], File.raw [42])],
   [["store"], ["store", "a"], ["store", "a", "0"], ["store", "a", "0", "0"],
    ["store", "a", "0", "0", "0"], ["store", "a", "0", "0", "0", "0"],
    ["store", "a", "0", "0", "0", "0", "0"]]⟩

/-- `fsRank6` after one completed consolidation run: the chunk lives as
entry `0.0` of container `store/a/0/0/0/0.h5`, the chunk file is gone and
the two emptied directories are pruned. -/
def fsRank6Once : FS :=
  ⟨[(["store", "a", ".zarray"], File.raw [0]),
    (["store", "a", "0", "0", "0", "0.h5"], File.h5 [("0.0", [42])])],
   [["store"], ["store", "a"], ["store", "a", "0"], ["store", "a", "0", "0"],
    ["store", "a", "0", "0", "0"]]⟩

/-- `fsRank6Once` after a second consolidation run: the scan picked up the
container file itself (depth 4 > 3, name `0.h5` lacks `'.z'`), re-migrated
its serialized bytes into `store/a/0/0.h5` under the nonsense dataset name
`0.0.h5`, and deleted it — the original chunk key is no longer readable. -/
def fsRank6Twice : FS :=
  ⟨[(["store", "a", ".zarray"], File.raw [0]),
    (["store", "a", "0", "0.h5"],
     File.h5 [("0.0.h5", encodeContainer [("0.0", [42])])])],
   [["store"], ["store", "a"], ["store", "a", "0"]]⟩

/-- A store with a nested directory `a/b` holding the only file `a/b/c`. -/
def fsNested : FS :=
  ⟨[(["store", "a", "b", "c"], File.raw [1, 2, 3])],
   [["store"], ["store", "a"], ["store", "a", "b"]]⟩

/-- A store with a directory `d` at a key's path, holding a file `d/x/f`. -/
def fsDirAtKey : FS :=
  ⟨[(["store", "d", "x", "f"], File.raw [1])],
   [["store"], ["store", "d"], ["store", "d", "x"]]⟩

/-- `cfgS` with direct shard writes disabled (pure nested-directory
behaviour). -/
def cfgNoDirect : Config := ⟨["store"], false, false, ".h5", 3, false, false⟩

/-! # Theorems -/

/-! ## Association-list and filesystem lemmas -/

theorem lookupF_setF_self (l : List (Path × File)) (p : Path) (f : File) :
    lookupF (setF l p f) p = some f := by
  induction l with
  | nil => simp [setF, lookupF]
  | cons e rest ih =>
    obtain ⟨q, g⟩ := e
    by_cases h : q = p
    · simp [setF, h, lookupF]
    · simp [setF, h, lookupF, ih]

theorem lookupF_setF_ne (l : List (Path × File)) (p q : Path) (f : File)
    (h : q ≠ p) : lookupF (setF l p f) q = lookupF l q := by
  induction l with
  | nil =>
    simp only [setF, lookupF]
    rw [if_neg (Ne.symm h)]
  | cons e rest ih =>
    obtain ⟨r, g⟩ := e
    simp only [setF]
    by_cases hr : r = p
    · subst hr
      simp only [if_pos rfl, lookupF]
      simp only [if_neg (Ne.symm h)]
    · simp only [if_neg hr, lookupF]
      by_cases hq : r = q
      · simp [hq]
      · simp [hq, ih]

theorem lookupE_setE_self (l : List (String × Bytes)) (n : String) (v : Bytes) :
    lookupE (setE l n v) n = some v := by
  induction l with
  | nil => simp [setE, lookupE]
  | cons e rest ih =>
    obtain ⟨k, b⟩ := e
    by_cases h : k = n
    · simp [setE, h, lookupE]
    · simp [setE, h, lookupE, ih]

theorem lookupF_filter_lead (l : List (Path × File)) (p q : Path)
    (h : hasLead q p = true) :
    lookupF (l.filter (fun e => !(hasLead e.1 p))) q = none := by
  induction l with
  | nil => simp [lookupF]
  | cons e rest ih =>
    by_cases hk : hasLead e.1 p
    · simp [List.filter, hk, ih]
    · have hne : e.1 ≠ q := by
        intro he
        rw [he] at hk
        exact hk h
      simp [List.filter, hk, lookupF, hne, ih]

theorem hasLead_append (p q : Path) : hasLead (p ++ q) p = true := by
  simp [hasLead, List.take_left]

theorem hasLead_refl (p : Path) : hasLead p p = true := by
  simp [hasLead, List.take_length]

theorem addDirChain_files (fs : FS) (p : Path) :
    (fs.addDirChain p).files = fs.files := rfl

theorem mkdirsExistOk_eq {fs : FS} {p : Path} {fs1 : FS}
    (h : fs.mkdirsExistOk p = some fs1) :
    fs1 = fs.addDirChain p ∧ blockedPath fs p = false := by
  unfold FS.mkdirsExistOk at h
  by_cases hb : blockedPath fs p
  · simp [hb] at h
  · simp [hb] at h
    exact ⟨h.symm, by simpa using hb⟩

theorem addDirChain_isdir (fs : FS) (p : Path) :
    (fs.addDirChain p).isdir p = true := by
  rcases p.eq_nil_or_concat with hp | ⟨_, _, hp⟩
  · simp [hp, FS.isdir]
  · have hlen : 0 < p.length := by
      rw [hp]; simp
    by_cases hmem : p ∈ fs.dirs
    · simp [FS.isdir, FS.addDirChain, hmem]
    · have hmem2 : p ∈ (List.range p.length).filterMap (fun i =>
        let q := p.take (i + 1)
        if q ∈ fs.dirs then none else some q) := by
        refine List.mem_filterMap.mpr ⟨p.length - 1, ?_, ?_⟩
        · exact List.mem_range.mpr (by omega)
        · have h1 : p.length - 1 + 1 = p.length := by omega
          simp only [h1, List.take_length, hmem, if_false]
      simp [FS.isdir, FS.addDirChain, hmem2]

theorem addDirChain_isdir_longer (fs : FS) (p q : Path)
    (h : p.length < q.length) :
    (fs.addDirChain p).isdir q = fs.isdir q := by
  have hiff : q ∈ (fs.addDirChain p).dirs ↔ q ∈ fs.dirs := by
    constructor
    · intro hq
      rcases List.mem_append.mp hq with hq | hq
      · exact hq
      · exfalso
        rcases List.mem_filterMap.mp hq with ⟨i, _, hi⟩
        by_cases hc : p.take (i + 1) ∈ fs.dirs
        · simp [hc] at hi
        · simp only [hc, if_false, Option.some.injEq] at hi
          have h2 : q.length ≤ p.length := by
            rw [← hi, List.length_take]
            omega
          omega
    · intro hq
      exact List.mem_append.mpr (Or.inl hq)
  simp [FS.isdir, decide_eq_decide.mpr hiff]

/-! ## Codec lemmas -/

theorem gaknLoop_fst_length (n : Nat) :
    ∀ p key, (gaknLoop n (p, key)).1.length ≤ p.length := by
  induction n with
  | zero => intro p key; simp [gaknLoop]
  | succ n ih =>
    intro p key
    simp only [gaknLoop]
    refine le_trans (ih _ _) ?_
    simp [List.length_dropLast]

theorem gaknLoop_fst_nil (n : Nat) (key : String) :
    (gaknLoop n ([], key)).1 = [] := by
  induction n generalizing key with
  | zero => simp [gaknLoop]
  | succ n ih => simpa [gaknLoop] using ih _

theorem appendExt_ne_nil (p : Path) (ext : String) : appendExt p ext ≠ [] := by
  cases p <;> simp [appendExt]

theorem appendExt_length (p : Path) (ext : String) :
    (appendExt p ext).length = max 1 p.length := by
  cases p with
  | nil => simp [appendExt]
  | cons a l =>
    simp [appendExt, List.length_dropLast]

theorem gakn_fst_length (D : Nat) (ext : String) (p : Path) :
    (get_archive_key_name D ext p).1.length ≤ max 1 (p.length - 1) := by
  have h1 := gaknLoop_fst_length (D - 2) p ""
  simp only [get_archive_key_name, appendExt_length, List.length_dropLast]
  omega

theorem gakn_fst_singleton (D : Nat) (ext : String) (s : String) :
    (get_archive_key_name D ext [s]).1 = [ext] := by
  have hfst : (gaknLoop (D - 2) ([s], "")).1.dropLast = [] := by
    cases hD : D - 2 with
    | zero => simp [gaknLoop]
    | succ n => simp [gaknLoop, lastSeg, gaknLoop_fst_nil]
  simp [get_archive_key_name, hfst, appendExt]

theorem normKey_ne_nil (cfg : Config) (k : List String) (hk : k ≠ []) :
    normKey cfg k ≠ [] := by
  unfold normKey
  by_cases h : cfg.normalize_keys <;> simp [h, hk]

/-- The computed shard-container path never coincides with the key's own
path, provided the key is nonempty and dot-free while the container
extension carries a dot. -/
theorem gakn_fst_ne (D : Nat) (ext : String) (rt k : Path)
    (hk : k ≠ []) (hdot : keyDot k = false) (hext : strHas ext '.' = true) :
    (get_archive_key_name D ext (rt ++ k)).1 ≠ rt ++ k := by
  intro he
  have hk1 : 1 ≤ k.length := by
    cases k with
    | nil => exact absurd rfl hk
    | cons a l => simp
  rcases Nat.lt_or_ge (rt ++ k).length 2 with h2 | h2
  · have hlen1 : (rt ++ k).length = 1 := by
      rw [List.length_append]
      rw [List.length_append] at h2
      omega
    have hrt : rt = [] := by
      rw [List.length_append] at hlen1
      exact List.length_eq_zero.mp (by omega)
    obtain ⟨s, hs⟩ : ∃ s, k = [s] := by
      subst hrt
      simp only [List.nil_append] at hlen1
      cases k with
      | nil => exact absurd rfl hk
      | cons a l =>
        refine ⟨a, ?_⟩
        simp only [List.length_cons] at hlen1
        have : l = [] := List.length_eq_zero.mp (by omega)
        rw [this]
    subst hrt hs
    rw [List.nil_append, gakn_fst_singleton] at he
    have hes : ext = s := (List.cons.injEq _ _ _ _ ▸ he).1
    have : strHas s '.' = true := hes ▸ hext
    simp [keyDot] at hdot
    rw [hdot] at this
    exact Bool.false_ne_true this
  · have hle := gakn_fst_length D ext (rt ++ k)
    rw [he] at hle
    have hmax : max 1 ((rt ++ k).length - 1) = (rt ++ k).length - 1 :=
      Nat.max_eq_right (by omega)
    omega

/-! ## Claim C2 -/

/-- Claim C2: when a raw file exists at the key's path, `get` returns that
raw file's content — whatever the shard container holds for the key (the
container is not consulted at all: the result does not depend on the `h5`
part of the state). -/
theorem get_raw_precedence (cfg : Config) (fs : FS) (key : List String)
    (b : Bytes)
    (hraw : lookupF fs.files (cfg.root ++ normKey cfg key) = some (File.raw b)) :
    getitem cfg fs key = some b := by
  simp [getitem, hraw]

/-- Witness for C2 at a state where both a raw file and a shard entry
exist for `a/0/0/1/2`: `get` returns the raw bytes `[3]`, not the shard
entry's `[9]`. -/
theorem get_raw_precedence_witness :
    getitem ⟨["store"], false, true, ".h5", 3, false, false⟩
      ⟨[(["store", "a", "0", "0", "1", "2"], File.raw [3]),
        (["store", "a", "0", "0.h5"], File.h5 [("1.2", [9])])],
       [["store"]]⟩ ["a", "0", "0", "1", "2"] = some [3] :=
  get_raw_precedence _ _ _ _ (by decide)

/-! ## Claim C1: counterexample -/

/-- Counterexample to claim C1 as stated: with a plain file occupying the
computed shard-container path `store/a/0/0.h5`, `set("a/0/0/1/2", [5])`
takes the direct-shard branch, `h5py.File` raises the `OSError` that
`_toh5` swallows, and the store is returned unchanged with no error — so
the following `get` raises `KeyError` instead of returning `[5]`. -/
theorem set_get_roundtrip_cex :
    setitem cfgS fsArchBlocked ["a", "0", "0", "1", "2"] [5] =
      SetRes.ok fsArchBlocked ∧
    getitem cfgS fsArchBlocked ["a", "0", "0", "1", "2"] = none := by
  decide

/-! ## Claim C3: counterexample -/

/-- Counterexample to claim C3 as stated: with depth 3, the codec peels
only the last `D - 1 = 2` segments, so `array/0/0/4/6/7` maps to container
`array/0/0/4.h5` with intra-key `6.7`, not to `array/0/0.h5` with
`4.6.7`. -/
theorem codec_depth_cex :
    get_archive_key_name 3 ".h5" ["array", "0", "0", "4", "6", "7"] =
      (["array", "0", "0", "4.h5"], "6.7") ∧
    get_archive_key_name 3 ".h5" ["array", "0", "0", "4", "6", "7"] ≠
      (["array", "0", "0.h5"], "4.6.7") := by
  decide

/-! ## Claim C1: amended round-trip -/

theorem isfile_false {fs : FS} {p : Path} (h : fs.isfile p = false) :
    lookupF fs.files p = none := by
  unfold FS.isfile at h
  cases hl : lookupF fs.files p with
  | none => rfl
  | some f =>
    rw [hl] at h
    simp at h

theorem directCond_parts {cfg : Config} {fs : FS} {key : List String}
    (h : directCond cfg fs key = true) :
    cfg.write_direct = true ∧ keyDot (normKey cfg key) = false ∧
    fs.isfile (cfg.root ++ normKey cfg key) = false := by
  simp only [directCond, Bool.and_eq_true, Bool.not_eq_true'] at h
  exact ⟨h.1.1, h.1.2, h.2⟩

theorem gakn_fst_ne_nil (D : Nat) (ext : String) (p : Path) :
    (get_archive_key_name D ext p).1 ≠ [] := by
  simp only [get_archive_key_name]
  exact appendExt_ne_nil _ _

theorem archiveSafe_parts {fs : FS} {a : Path} (h : archiveSafe fs a = true) :
    (∀ b, lookupF fs.files a ≠ some (File.raw b)) ∧ fs.isdir a = false := by
  simp only [archiveSafe, Bool.and_eq_true, Bool.not_eq_true'] at h
  refine ⟨?_, h.2⟩
  intro b hb
  rw [hb] at h
  exact Bool.false_ne_true h.1

/-- Claim C1 (amended): for every key `k` and payload `v`, `set(k, v)`
followed by `get(k)` returns exactly `v` — for shard-eligible and
metadata/raw keys alike — provided `set` completed without error and,
whenever the direct-shard branch is taken, the computed shard-container
path can actually be opened (it holds a container or nothing, and is not a
directory).  The proviso is forced by the counterexample
(`set_get_roundtrip_cex`): with a plain file at the container path the
source swallows the `OSError` and silently stores nothing. -/
theorem set_get_roundtrip (cfg : Config) (fs fs' : FS) (key : List String)
    (v : Bytes)
    (hvk : ValidKey key)
    (hext : strHas cfg.container_ext '.' = true)
    (hok : setitem cfg fs key v = SetRes.ok fs')
    (harch : directCond cfg fs key = true →
      archiveSafe fs (get_archive_key_name cfg.consolidate_depth
        cfg.container_ext (cfg.root ++ normKey cfg key)).1 = true) :
    getitem cfg fs' key = some v := by
  by_cases hC : directCond cfg fs key = true
  · -- direct-shard branch
    obtain ⟨hwd, hdot, hnof⟩ := directCond_parts hC
    obtain ⟨hnotraw, hnd⟩ := archiveSafe_parts (harch hC)
    simp only [setitem, write_direct_to_h5, if_pos hC] at hok
    cases hm : fs.mkdirsExistOk
        ((get_archive_key_name cfg.consolidate_depth cfg.container_ext
          (cfg.root ++ normKey cfg key)).1.dropLast) with
    | none =>
      rw [hm] at hok
      exact absurd hok (by simp)
    | some fs1 =>
      rw [hm] at hok
      simp only [SetRes.ok.injEq] at hok
      obtain ⟨hfs1, _⟩ := mkdirsExistOk_eq hm
      have hfiles1 : fs1.files = fs.files := by
        rw [hfs1]
        rfl
      have hne : (get_archive_key_name cfg.consolidate_depth cfg.container_ext
          (cfg.root ++ normKey cfg key)).1 ≠ cfg.root ++ normKey cfg key :=
        gakn_fst_ne _ _ _ _ (normKey_ne_nil cfg key hvk.1) hdot hext
      have hlfp : lookupF fs.files (cfg.root ++ normKey cfg key) = none :=
        isfile_false hnof
      -- the container after the write, in both live cases of `toh5`
      have hmain : ∃ es', fs'.files =
          setF fs.files (get_archive_key_name cfg.consolidate_depth
            cfg.container_ext (cfg.root ++ normKey cfg key)).1 (.h5 es') ∧
          lookupE es' (get_archive_key_name cfg.consolidate_depth
            cfg.container_ext (cfg.root ++ normKey cfg key)).2 = some v := by
        cases hl : lookupF fs.files (get_archive_key_name cfg.consolidate_depth
            cfg.container_ext (cfg.root ++ normKey cfg key)).1 with
        | some f =>
          cases f with
          | raw b => exact absurd hl (hnotraw b)
          | h5 es =>
            refine ⟨setE es (get_archive_key_name cfg.consolidate_depth
              cfg.container_ext (cfg.root ++ normKey cfg key)).2 v, ?_, ?_⟩
            · rw [← hok]
              simp only [toh5, hfiles1, hl]
            · exact lookupE_setE_self _ _ _
        | none =>
          have hnenil := gakn_fst_ne_nil cfg.consolidate_depth cfg.container_ext
            (cfg.root ++ normKey cfg key)
          have hlong : (get_archive_key_name cfg.consolidate_depth
              cfg.container_ext (cfg.root ++ normKey cfg key)).1.dropLast.length <
              (get_archive_key_name cfg.consolidate_depth cfg.container_ext
                (cfg.root ++ normKey cfg key)).1.length := by
            rw [List.length_dropLast]
            cases hcc : (get_archive_key_name cfg.consolidate_depth
                cfg.container_ext (cfg.root ++ normKey cfg key)).1 with
            | nil => exact absurd hcc hnenil
            | cons a l => simp
          have hd1 : fs1.isdir (get_archive_key_name cfg.consolidate_depth
              cfg.container_ext (cfg.root ++ normKey cfg key)).1 = false := by
            rw [hfs1, addDirChain_isdir_longer _ _ _ hlong]
            exact hnd
          have hd2 : fs1.isdir (get_archive_key_name cfg.consolidate_depth
              cfg.container_ext (cfg.root ++ normKey cfg key)).1.dropLast = true := by
            rw [hfs1]
            exact addDirChain_isdir _ _
          refine ⟨[((get_archive_key_name cfg.consolidate_depth
            cfg.container_ext (cfg.root ++ normKey cfg key)).2, v)], ?_, ?_⟩
          · rw [← hok]
            simp only [toh5, hfiles1, hl, hd1, hd2]
            simp
          · simp [lookupE]
      obtain ⟨es', hes1, hes2⟩ := hmain
      have hsc : lookupF fs'.files (cfg.root ++ normKey cfg key) = none := by
        rw [hes1, lookupF_setF_ne _ _ _ _ (fun hh => hne hh.symm)]
        exact hlfp
      have hsa : lookupF fs'.files (get_archive_key_name cfg.consolidate_depth
          cfg.container_ext (cfg.root ++ normKey cfg key)).1 =
          some (File.h5 es') := by
        rw [hes1]
        exact lookupF_setF_self _ _ _
      simp only [getitem, hsc, hsa, Option.isSome_some, if_true,
        read_direct_to_h5, ite_self, fromh5]
      exact hes2
  · -- fallback raw-file branch
    simp only [setitem, if_neg hC] at hok
    by_cases hdp : (if fs.isdir (cfg.root ++ normKey cfg key) then
        fs.rmtree (cfg.root ++ normKey cfg key) else fs).isfile
        (cfg.root ++ normKey cfg key).dropLast = true
    · rw [if_pos hdp] at hok
      exact absurd hok (by simp)
    · rw [if_neg hdp] at hok
      cases hm : (if (if fs.isdir (cfg.root ++ normKey cfg key) then
          fs.rmtree (cfg.root ++ normKey cfg key) else fs).existsPath
            (cfg.root ++ normKey cfg key).dropLast = true then
          some (if fs.isdir (cfg.root ++ normKey cfg key) then
            fs.rmtree (cfg.root ++ normKey cfg key) else fs)
        else (if fs.isdir (cfg.root ++ normKey cfg key) then
            fs.rmtree (cfg.root ++ normKey cfg key) else fs).mkdirsExistOk
          (cfg.root ++ normKey cfg key).dropLast) with
      | none =>
        rw [hm] at hok
        exact absurd hok (by simp)
      | some fs2 =>
        rw [hm] at hok
        simp only [SetRes.ok.injEq] at hok
        have : lookupF fs'.files (cfg.root ++ normKey cfg key) =
            some (File.raw v) := by
          rw [← hok]
          exact lookupF_setF_self _ _ _
        simp [getitem, this]

/-- Witness for the amended C1: on a clean store, `set("a/0/0/1/2", [5])`
lands in container `store/a/0/0.h5` under key `1.2` and `get` returns
`[5]`. -/
theorem set_get_roundtrip_witness :
    getitem cfgS fsAfterDirect ["a", "0", "0", "1", "2"] = some [5] :=
  set_get_roundtrip cfgS fsClean fsAfterDirect ["a", "0", "0", "1", "2"] [5]
    ⟨by decide, by decide⟩ (by decide) (by decide) (fun _ => by decide)

/-! ## Claim C3: amended characterization -/

theorem gaknLoop_spec (n : Nat) :
    ∀ (p : Path) (key : String), n ≤ p.length →
    gaknLoop n (p, key) = (p.take (p.length - n),
      (p.drop (p.length - n)).foldr (fun s acc => "." ++ s ++ acc) key) := by
  induction n with
  | zero =>
    intro p key _
    simp [gaknLoop]
  | succ n ih =>
    intro p key h
    have hne : p ≠ [] := by
      intro hp
      rw [hp] at h
      simp at h
    have hlen : p.dropLast.length = p.length - 1 := List.length_dropLast p
    have h1 : n ≤ p.dropLast.length := by omega
    simp only [gaknLoop]
    rw [ih p.dropLast ("." ++ lastSeg p ++ key) h1]
    have hidx : p.dropLast.length - n = p.length - (n + 1) := by omega
    rw [hidx]
    have hfst : p.dropLast.take (p.length - (n + 1)) =
        p.take (p.length - (n + 1)) := by
      rw [List.dropLast_eq_take, List.take_take]
      congr 1
      omega
    have hglast : p.dropLast ++ [p.getLast hne] = p :=
      List.dropLast_append_getLast hne
    have hdrop : p.drop (p.length - (n + 1)) =
        p.dropLast.drop (p.length - (n + 1)) ++ [p.getLast hne] := by
      have h3 : p.length - (n + 1) ≤ p.dropLast.length := by omega
      calc p.drop (p.length - (n + 1))
          = (p.dropLast ++ [p.getLast hne]).drop (p.length - (n + 1)) := by
            rw [hglast]
        _ = p.dropLast.drop (p.length - (n + 1)) ++ [p.getLast hne] :=
            List.drop_append_of_le_length h3
    have hlast : lastSeg p = p.getLast hne := by
      simp [lastSeg, List.getLast?_eq_getLast p hne]
    rw [hfst, hdrop, List.foldr_append]
    simp [hlast]

theorem dotJoin_eq_foldr (h : String) (t : List String) :
    h ++ t.foldr (fun s acc => "." ++ s ++ acc) "" = dotJoin (h :: t) := by
  induction t generalizing h with
  | nil => simp [dotJoin]
  | cons a t ih =>
    simp only [List.foldr, dotJoin]
    rw [← ih]
    simp [String.append_assoc]

/-- Claim C3 (amended): for a configured depth `D ≥ 2` and a path of at
least `D` segments, the codec maps the path to the shard container formed
from all segments except the last `D - 1` (with the extension appended to
its final segment) and to the intra-container key joining the last `D - 1`
segments with `'.'`.  (The claim's "last D" fails: see the
counterexample.) -/
theorem codec_shard_split (D : Nat) (ext : String) (p : Path)
    (h2 : 2 ≤ D) (hD : D ≤ p.length) :
    get_archive_key_name D ext p =
      (appendExt (p.take (p.length - (D - 1))) ext,
       dotJoin (p.drop (p.length - (D - 1)))) := by
  have hn : D - 2 ≤ p.length := by omega
  unfold get_archive_key_name
  rw [gaknLoop_spec (D - 2) p "" hn]
  have hq : p.drop (p.length - (D - 1)) ≠ [] := by
    intro hq
    have h5 := congrArg List.length hq
    rw [List.length_drop] at h5
    simp only [List.length_nil] at h5
    omega
  obtain ⟨qh, qt, hqeq⟩ : ∃ qh qt, p.drop (p.length - (D - 1)) = qh :: qt := by
    cases hc : p.drop (p.length - (D - 1)) with
    | nil => exact absurd hc hq
    | cons a l => exact ⟨a, l, rfl⟩
  have hsplit : p.length - (D - 2) = (p.length - (D - 1)) + 1 := by omega
  have hT : p.take (p.length - (D - 2)) =
      p.take (p.length - (D - 1)) ++ [qh] := by
    rw [hsplit, List.take_add, hqeq]
    rfl
  have htail : p.drop (p.length - (D - 2)) = qt := by
    have : p.drop (p.length - (D - 2)) =
        (p.drop (p.length - (D - 1))).drop 1 := by
      rw [List.drop_drop]
      congr 1
    rw [this, hqeq]
    rfl
  have hlastT : lastSeg (p.take (p.length - (D - 2))) = qh := by
    rw [hT]
    simp [lastSeg, List.getLast?_concat]
  have hdropT : (p.take (p.length - (D - 2))).dropLast =
      p.take (p.length - (D - 1)) := by
    rw [hT]
    simp
  simp only [htail, hlastT, hdropT, hqeq]
  rw [dotJoin_eq_foldr]

/-- Witness for the amended C3 at the spec's own example: depth 3 splits
`array/0/0/4/6/7` into the container over the first four segments and the
dot-join of the last two. -/
theorem codec_shard_split_witness :
    get_archive_key_name 3 ".h5" ["array", "0", "0", "4", "6", "7"] =
      (appendExt (["array", "0", "0", "4", "6", "7"].take 4) ".h5",
       dotJoin (["array", "0", "0", "4", "6", "7"].drop 4)) :=
  codec_shard_split 3 ".h5" _ (by decide) (by decide)

/-! ## Claim C4 -/

/-- Claim C4 (code-bug evaluation): deleting key `a/0/0/1/2/3` from a
store that holds exactly that raw file and no shard container removes the
file *and* raises `KeyError` — the `else: raise KeyError(key)` of
`__delitem__` fires whenever the container file is absent, even though the
raw-file removal succeeded.  The claim says either removal alone suffices
for the delete to succeed. -/
theorem delete_raises_after_removing_raw :
    delitem cfgS fsRawOnly ["a", "0", "0", "1", "2", "3"] =
      (⟨[], fsRawOnly.dirs⟩, DelRes.keyErr) := by
  decide

/-! ## Claim C5: counterexample -/

/-- Counterexample to claim C5 as stated: the key `0.0` is not a metadata
key by the spec's final-segment-`'.'`-prefix test, direct writes are
enabled and no raw file exists, yet `set` falls back to the raw-file path
(writing `store/0.0` and no container entry), because the source tests
`'.' in key` anywhere in the key. -/
theorem set_direct_branch_cex :
    specMetadataKey ["0.0"] = false ∧
    setitem cfgS fsRootOnly ["0.0"] [7] =
      SetRes.ok ⟨[(["store", "0.0"], File.raw [7])], [["store"]]⟩ := by
  decide

/-! ## Claim C8 -/

/-- Claim C8 (code-bug evaluation): consolidating the six-axis flat array
`fsRank6` once migrates its chunk into `store/a/0/0/0/0.h5`; the second
run's scan then yields that container file itself (its relative depth 4
exceeds 3 and `0.h5` does not contain `'.z'`), so the second run migrates
again — burying the container's serialized bytes inside `store/a/0/0.h5`
and deleting it — instead of being a no-op. -/
theorem consolidate_second_run_migrates :
    consolidate cfgS fsRank6 = some fsRank6Once ∧
    uniqueArchiveLocations cfgS fsRank6Once = [["store", "a", "0", "0.h5"]] ∧
    consolidate cfgS fsRank6Once = some fsRank6Twice ∧
    fsRank6Twice ≠ fsRank6Once := by
  decide

/-! ## Claim C9: counterexample -/

/-- Counterexample to claim C9 as stated: for the directory `a` whose only
content is the nested file `a/b/c` of size 3, `getsize` returns 0 — the
`os.scandir` loop sums immediate children only, not the recursive sum of
all raw files under the path. -/
theorem getsize_nonrecursive_cex :
    getsize cfgS (fun _ => 0) fsNested ["a"] = 0 ∧
    rawSizeUnderSpec fsNested ["store", "a"] = 3 ∧
    getsize cfgS (fun _ => 0) fsNested ["a"] ≠
      rawSizeUnderSpec fsNested ["store", "a"] := by
  decide

/-! ## Claim C10 -/

theorem mem_addDirChain_dirs {fs : FS} {p q : Path}
    (h : q ∈ (fs.addDirChain p).dirs) :
    q ∈ fs.dirs ∨ q.length ≤ p.length := by
  rcases List.mem_append.mp h with h | h
  · exact .inl h
  · right
    rcases List.mem_filterMap.mp h with ⟨i, _, hi⟩
    by_cases hc : p.take (i + 1) ∈ fs.dirs
    · simp [hc] at hi
    · simp only [hc, if_false, Option.some.injEq] at hi
      rw [← hi, List.length_take]
      omega

theorem not_mem_rmtree_dirs {fs : FS} {p q : Path} (h : hasLead q p = true) :
    q ∉ (fs.rmtree p).dirs := by
  intro hq
  rcases List.mem_filter.mp hq with ⟨_, hcond⟩
  rw [h] at hcond
  simp at hcond

/-- Claim C10: whenever `set(key, value)` takes the raw-file branch and a
directory exists at the key's destination path, `set` removes that entire
directory tree — every file and directory beneath it — and writes the
value as a plain file at the path. -/
theorem set_rmtree_dir (cfg : Config) (fs fs' : FS) (key : List String)
    (v : Bytes)
    (hbranch : directCond cfg fs key = false)
    (hd : fs.isdir (cfg.root ++ normKey cfg key) = true)
    (hok : setitem cfg fs key v = SetRes.ok fs') :
    lookupF fs'.files (cfg.root ++ normKey cfg key) = some (File.raw v) ∧
    ∀ q : Path, q ≠ [] →
      lookupF fs'.files ((cfg.root ++ normKey cfg key) ++ q) = none ∧
      ((cfg.root ++ normKey cfg key) ++ q) ∉ fs'.dirs := by
  simp only [setitem, hbranch, Bool.false_eq_true, if_false, hd, if_true] at hok
  by_cases hdp : (fs.rmtree (cfg.root ++ normKey cfg key)).isfile
      (cfg.root ++ normKey cfg key).dropLast = true
  · rw [if_pos hdp] at hok
    exact absurd hok (by simp)
  · rw [if_neg hdp] at hok
    cases hm : (if (fs.rmtree (cfg.root ++ normKey cfg key)).existsPath
          (cfg.root ++ normKey cfg key).dropLast = true then
        some (fs.rmtree (cfg.root ++ normKey cfg key))
      else (fs.rmtree (cfg.root ++ normKey cfg key)).mkdirsExistOk
        (cfg.root ++ normKey cfg key).dropLast) with
    | none =>
      rw [hm] at hok
      exact absurd hok (by simp)
    | some fs2 =>
      rw [hm] at hok
      simp only [SetRes.ok.injEq] at hok
      have hfs2files : fs2.files =
          (fs.rmtree (cfg.root ++ normKey cfg key)).files := by
        by_cases he : (fs.rmtree (cfg.root ++ normKey cfg key)).existsPath
            (cfg.root ++ normKey cfg key).dropLast = true
        · rw [if_pos he] at hm
          cases hm
          rfl
        · rw [if_neg he] at hm
          obtain ⟨heq, _⟩ := mkdirsExistOk_eq hm
          rw [heq]
          rfl
      have hfs2dirs : ∀ r : Path, r ∈ fs2.dirs →
          r ∈ (fs.rmtree (cfg.root ++ normKey cfg key)).dirs ∨
          r.length ≤ (cfg.root ++ normKey cfg key).dropLast.length := by
        intro r hr
        by_cases he : (fs.rmtree (cfg.root ++ normKey cfg key)).existsPath
            (cfg.root ++ normKey cfg key).dropLast = true
        · rw [if_pos he] at hm
          cases hm
          exact .inl hr
        · rw [if_neg he] at hm
          obtain ⟨heq, _⟩ := mkdirsExistOk_eq hm
          rw [heq] at hr
          exact mem_addDirChain_dirs hr
      refine ⟨?_, ?_⟩
      · rw [← hok]
        simp only [FS.writeFile]
        exact lookupF_setF_self _ _ _
      · intro q hq
        have hlead : hasLead ((cfg.root ++ normKey cfg key) ++ q)
            (cfg.root ++ normKey cfg key) = true := hasLead_append _ _
        have hq1 : 1 ≤ q.length := by
          cases q with
          | nil => exact absurd rfl hq
          | cons a l => simp
        have hne : (cfg.root ++ normKey cfg key) ++ q ≠
            cfg.root ++ normKey cfg key := by
          intro he
          have := congrArg List.length he
          rw [List.length_append] at this
          omega
        refine ⟨?_, ?_⟩
        · rw [← hok]
          simp only [FS.writeFile]
          rw [lookupF_setF_ne _ _ _ _ hne, hfs2files]
          exact lookupF_filter_lead _ _ _ hlead
        · rw [← hok]
          intro hmem
          simp only [FS.writeFile] at hmem
          rcases hfs2dirs _ hmem with hin | hlen
          · exact not_mem_rmtree_dirs hlead hin
          · rw [List.length_append, List.length_dropLast] at hlen
            omega

/-- Witness for C10: with direct writes off and a directory at key `d`
(holding `d/x/f`), `set("d", [5])` deletes the whole tree and writes the
raw file. -/
theorem set_rmtree_dir_witness :
    lookupF (FS.mk [(["store", "d"], File.raw [5])] [["store"]]).files
      ["store", "d"] = some (File.raw [5]) ∧
    lookupF (FS.mk [(["store", "d"], File.raw [5])] [["store"]]).files
      ["store", "d", "x", "f"] = none ∧
    (["store", "d", "x"] : Path) ∉
      (FS.mk [(["store", "d"], File.raw [5])] [["store"]]).dirs := by
  have T := set_rmtree_dir cfgNoDirect fsDirAtKey
    (FS.mk [(["store", "d"], File.raw [5])] [["store"]]) ["d"] [5]
    (by decide) (by decide) (by decide)
  exact ⟨T.1, (T.2 ["x", "f"] (by decide)).1, (T.2 ["x"] (by decide)).2⟩

/-! ## Claim C5: amended branch characterization -/

theorem hasLead_false_of_short {q p : Path} (h : q.length < p.length) :
    hasLead q p = false := by
  simp only [hasLead, decide_eq_false_iff_not]
  intro he
  have := congrArg List.length he
  rw [List.length_take] at this
  omega

theorem lookupF_filter_notlead (l : List (Path × File)) (p q : Path)
    (h : hasLead q p = false) :
    lookupF (l.filter (fun e => !(hasLead e.1 p))) q = lookupF l q := by
  induction l with
  | nil => rfl
  | cons e rest ih =>
    obtain ⟨ep, ef⟩ := e
    by_cases hk : hasLead ep p = true
    · have hne : ep ≠ q := by
        intro he
        rw [he, h] at hk
        exact Bool.false_ne_true hk
      simp [List.filter_cons, hk, lookupF, hne, ih]
    · have hk2 : hasLead ep p = false := by
        cases hcc : hasLead ep p
        · rfl
        · exact absurd hcc hk
      rw [List.filter_cons]
      rw [if_pos (by rw [hk2]; rfl)]
      simp only [lookupF]
      by_cases hq : ep = q
      · simp [hq]
      · simp [hq, ih]

theorem isfile_rmtree {fs : FS} {p q : Path} (h : hasLead q p = false) :
    (fs.rmtree p).isfile q = fs.isfile q := by
  simp [FS.isfile, FS.rmtree, lookupF_filter_notlead _ _ _ h]

theorem isdir_rmtree {fs : FS} {p q : Path} (h : hasLead q p = false) :
    (fs.rmtree p).isdir q = fs.isdir q := by
  have hiff : (q ∈ (fs.rmtree p).dirs) ↔ q ∈ fs.dirs := by
    show (q ∈ fs.dirs.filter (fun d => !(hasLead d p))) ↔ q ∈ fs.dirs
    rw [List.mem_filter]
    constructor
    · exact fun x => x.1
    · intro hx
      exact ⟨hx, by simp [h]⟩
  simp only [FS.isdir, decide_eq_decide.mpr hiff]

theorem existsPath_rmtree {fs : FS} {p q : Path} (h : hasLead q p = false) :
    (fs.rmtree p).existsPath q = fs.existsPath q := by
  simp [FS.existsPath, isfile_rmtree h, isdir_rmtree h]

theorem any_congr_aux {α : Type} (l : List α) (f g : α → Bool)
    (h : ∀ x ∈ l, f x = g x) : l.any f = l.any g := by
  induction l with
  | nil => rfl
  | cons a t ih =>
    simp only [List.any_cons, h a (by simp)]
    rw [ih (fun x hx => h x (by simp [hx]))]

theorem blockedPath_rmtree {fs : FS} {p q : Path} (h : q.length < p.length) :
    blockedPath (fs.rmtree p) q = blockedPath fs q := by
  unfold blockedPath
  refine any_congr_aux _ _ _ ?_
  intro i _
  refine isfile_rmtree (hasLead_false_of_short ?_)
  rw [List.length_take]
  omega

/-- Claim C5 (amended): `set(key, value)` writes directly into the shard
container exactly when direct writes are enabled, the (normalized) key
contains no `'.'` character anywhere — not merely no `'.'`-prefixed final
segment — and no file occupies the key's path; in every other case it
falls back to the raw-file path, ensuring the parent directory exists and
writing the value as a plain file.  The container/parent provisos `hA`,
`hB` exclude the states where the source raises or silently drops (cf.
claims C1, C6). -/
theorem set_direct_branch_exact (cfg : Config) (fs : FS) (key : List String)
    (v : Bytes)
    (hvk : ValidKey key)
    (hext : strHas cfg.container_ext '.' = true)
    (hA : directCond cfg fs key = true →
      archiveSafe fs (get_archive_key_name cfg.consolidate_depth
        cfg.container_ext (cfg.root ++ normKey cfg key)).1 = true ∧
      blockedPath fs (get_archive_key_name cfg.consolidate_depth
        cfg.container_ext (cfg.root ++ normKey cfg key)).1.dropLast = false)
    (hB : directCond cfg fs key = false →
      fs.isfile (cfg.root ++ normKey cfg key).dropLast = false ∧
      (fs.existsPath (cfg.root ++ normKey cfg key).dropLast = true ∨
        blockedPath fs (cfg.root ++ normKey cfg key).dropLast = false)) :
    (directCond cfg fs key = true →
      ∃ fs' es', setitem cfg fs key v = SetRes.ok fs' ∧
        lookupF fs'.files (get_archive_key_name cfg.consolidate_depth
          cfg.container_ext (cfg.root ++ normKey cfg key)).1 =
          some (File.h5 es') ∧
        lookupE es' (get_archive_key_name cfg.consolidate_depth
          cfg.container_ext (cfg.root ++ normKey cfg key)).2 = some v ∧
        lookupF fs'.files (cfg.root ++ normKey cfg key) = none) ∧
    (directCond cfg fs key = false →
      ∃ fs', setitem cfg fs key v = SetRes.ok fs' ∧
        lookupF fs'.files (cfg.root ++ normKey cfg key) =
          some (File.raw v) ∧
        fs'.isdir (cfg.root ++ normKey cfg key).dropLast = true) := by
  have hfplen : 1 ≤ (cfg.root ++ normKey cfg key).length := by
    rw [List.length_append]
    cases hnk : normKey cfg key with
    | nil => exact absurd hnk (normKey_ne_nil cfg key hvk.1)
    | cons a l =>
      simp only [List.length_cons]
      omega
  constructor
  · -- direct branch
    intro hC
    obtain ⟨hsafe, hblk⟩ := hA hC
    obtain ⟨hwd, hdot, hnof⟩ := directCond_parts hC
    obtain ⟨hnotraw, hnd⟩ := archiveSafe_parts hsafe
    have hm : fs.mkdirsExistOk ((get_archive_key_name cfg.consolidate_depth
        cfg.container_ext (cfg.root ++ normKey cfg key)).1.dropLast) =
        some (fs.addDirChain ((get_archive_key_name cfg.consolidate_depth
          cfg.container_ext (cfg.root ++ normKey cfg key)).1.dropLast)) := by
      unfold FS.mkdirsExistOk
      rw [hblk]
      simp
    have hne : (get_archive_key_name cfg.consolidate_depth cfg.container_ext
        (cfg.root ++ normKey cfg key)).1 ≠ cfg.root ++ normKey cfg key :=
      gakn_fst_ne _ _ _ _ (normKey_ne_nil cfg key hvk.1) hdot hext
    have hlfp : lookupF fs.files (cfg.root ++ normKey cfg key) = none :=
      isfile_false hnof
    have hfiles1 : (fs.addDirChain ((get_archive_key_name cfg.consolidate_depth
        cfg.container_ext (cfg.root ++ normKey cfg key)).1.dropLast)).files =
        fs.files := rfl
    have hmain : ∃ es', (toh5 (fs.addDirChain
          ((get_archive_key_name cfg.consolidate_depth cfg.container_ext
            (cfg.root ++ normKey cfg key)).1.dropLast))
          (get_archive_key_name cfg.consolidate_depth cfg.container_ext
            (cfg.root ++ normKey cfg key)).1
          (get_archive_key_name cfg.consolidate_depth cfg.container_ext
            (cfg.root ++ normKey cfg key)).2 v).files =
        setF fs.files (get_archive_key_name cfg.consolidate_depth
          cfg.container_ext (cfg.root ++ normKey cfg key)).1 (.h5 es') ∧
        lookupE es' (get_archive_key_name cfg.consolidate_depth
          cfg.container_ext (cfg.root ++ normKey cfg key)).2 = some v := by
      cases hl : lookupF fs.files (get_archive_key_name cfg.consolidate_depth
          cfg.container_ext (cfg.root ++ normKey cfg key)).1 with
      | some f =>
        cases f with
        | raw b => exact absurd hl (hnotraw b)
        | h5 es =>
          refine ⟨setE es (get_archive_key_name cfg.consolidate_depth
            cfg.container_ext (cfg.root ++ normKey cfg key)).2 v, ?_, ?_⟩
          · simp only [toh5, hfiles1, hl]
          · exact lookupE_setE_self _ _ _
      | none =>
        have hnenil := gakn_fst_ne_nil cfg.consolidate_depth cfg.container_ext
          (cfg.root ++ normKey cfg key)
        have hlong : (get_archive_key_name cfg.consolidate_depth
            cfg.container_ext (cfg.root ++ normKey cfg key)).1.dropLast.length <
            (get_archive_key_name cfg.consolidate_depth cfg.container_ext
              (cfg.root ++ normKey cfg key)).1.length := by
          rw [List.length_dropLast]
          cases hcc : (get_archive_key_name cfg.consolidate_depth
              cfg.container_ext (cfg.root ++ normKey cfg key)).1 with
          | nil => exact absurd hcc hnenil
          | cons a l => simp
        have hd1 : (fs.addDirChain ((get_archive_key_name cfg.consolidate_depth
            cfg.container_ext (cfg.root ++ normKey cfg key)).1.dropLast)).isdir
            (get_archive_key_name cfg.consolidate_depth cfg.container_ext
              (cfg.root ++ normKey cfg key)).1 = false := by
          rw [addDirChain_isdir_longer _ _ _ hlong]
          exact hnd
        have hd2 : (fs.addDirChain ((get_archive_key_name cfg.consolidate_depth
            cfg.container_ext (cfg.root ++ normKey cfg key)).1.dropLast)).isdir
            (get_archive_key_name cfg.consolidate_depth cfg.container_ext
              (cfg.root ++ normKey cfg key)).1.dropLast = true :=
          addDirChain_isdir _ _
        refine ⟨[((get_archive_key_name cfg.consolidate_depth
          cfg.container_ext (cfg.root ++ normKey cfg key)).2, v)], ?_, ?_⟩
        · simp only [toh5, hfiles1, hl, hd1, hd2]
          simp
        · simp [lookupE]
    obtain ⟨es', hes1, hes2⟩ := hmain
    refine ⟨toh5 (fs.addDirChain ((get_archive_key_name cfg.consolidate_depth
        cfg.container_ext (cfg.root ++ normKey cfg key)).1.dropLast))
      (get_archive_key_name cfg.consolidate_depth cfg.container_ext
        (cfg.root ++ normKey cfg key)).1
      (get_archive_key_name cfg.consolidate_depth cfg.container_ext
        (cfg.root ++ normKey cfg key)).2 v, es', ?_, ?_, hes2, ?_⟩
    · simp only [setitem, write_direct_to_h5, if_pos hC, hm]
    · rw [hes1]
      exact lookupF_setF_self _ _ _
    · rw [hes1, lookupF_setF_ne _ _ _ _ (fun hh => hne hh.symm)]
      exact hlfp
  · -- fallback branch
    intro hC
    obtain ⟨hdpf, hcreate⟩ := hB hC
    have hdshort : (cfg.root ++ normKey cfg key).dropLast.length <
        (cfg.root ++ normKey cfg key).length := by
      rw [List.length_dropLast]
      omega
    have hdlead : hasLead (cfg.root ++ normKey cfg key).dropLast
        (cfg.root ++ normKey cfg key) = false :=
      hasLead_false_of_short hdshort
    -- facts about fs1 (the state after the possible rmtree)
    have hfs1file : (if fs.isdir (cfg.root ++ normKey cfg key) then
        fs.rmtree (cfg.root ++ normKey cfg key) else fs).isfile
        (cfg.root ++ normKey cfg key).dropLast = false := by
      by_cases hid : fs.isdir (cfg.root ++ normKey cfg key) = true
      · rw [if_pos hid, isfile_rmtree hdlead]
        exact hdpf
      · rw [if_neg hid]
        exact hdpf
    have hfs1exists : (if fs.isdir (cfg.root ++ normKey cfg key) then
        fs.rmtree (cfg.root ++ normKey cfg key) else fs).existsPath
        (cfg.root ++ normKey cfg key).dropLast =
        fs.existsPath (cfg.root ++ normKey cfg key).dropLast := by
      by_cases hid : fs.isdir (cfg.root ++ normKey cfg key) = true
      · rw [if_pos hid, existsPath_rmtree hdlead]
      · rw [if_neg hid]
    have hfs1blocked : blockedPath (if fs.isdir (cfg.root ++ normKey cfg key)
        then fs.rmtree (cfg.root ++ normKey cfg key) else fs)
        (cfg.root ++ normKey cfg key).dropLast =
        blockedPath fs (cfg.root ++ normKey cfg key).dropLast := by
      by_cases hid : fs.isdir (cfg.root ++ normKey cfg key) = true
      · rw [if_pos hid, blockedPath_rmtree hdshort]
      · rw [if_neg hid]
    have hfs1isdir : (if fs.isdir (cfg.root ++ normKey cfg key) then
        fs.rmtree (cfg.root ++ normKey cfg key) else fs).isdir
        (cfg.root ++ normKey cfg key).dropLast =
        fs.isdir (cfg.root ++ normKey cfg key).dropLast := by
      by_cases hid : fs.isdir (cfg.root ++ normKey cfg key) = true
      · rw [if_pos hid, isdir_rmtree hdlead]
      · rw [if_neg hid]
    by_cases hex : fs.existsPath (cfg.root ++ normKey cfg key).dropLast = true
    · -- parent already exists: it must be a directory
      have hisd : (if fs.isdir (cfg.root ++ normKey cfg key) then
          fs.rmtree (cfg.root ++ normKey cfg key) else fs).isdir
          (cfg.root ++ normKey cfg key).dropLast = true := by
        rw [hfs1isdir]
        unfold FS.existsPath at hex
        rw [Bool.or_eq_true] at hex
        rcases hex with hf | hd
        · rw [hf] at hdpf
          exact absurd hdpf (by simp)
        · exact hd
      refine ⟨(if fs.isdir (cfg.root ++ normKey cfg key) then
          fs.rmtree (cfg.root ++ normKey cfg key) else fs).writeFile
          (cfg.root ++ normKey cfg key) v, ?_, ?_, ?_⟩
      · simp [setitem, hC, hfs1file, hfs1exists, hex]
      · exact lookupF_setF_self _ _ _
      · exact hisd
    · -- parent must be creatable
      have hblk : blockedPath fs (cfg.root ++ normKey cfg key).dropLast =
          false := by
        rcases hcreate with hc | hc
        · exact absurd hc hex
        · exact hc
      refine ⟨((if fs.isdir (cfg.root ++ normKey cfg key) then
          fs.rmtree (cfg.root ++ normKey cfg key) else fs).addDirChain
          (cfg.root ++ normKey cfg key).dropLast).writeFile
          (cfg.root ++ normKey cfg key) v, ?_, ?_, ?_⟩
      · have hex2 : fs.existsPath (cfg.root ++ normKey cfg key).dropLast =
            false := by
          cases hcc : fs.existsPath (cfg.root ++ normKey cfg key).dropLast
          · rfl
          · exact absurd hcc hex
        simp [setitem, hC, hfs1file, hfs1exists, hex2, FS.mkdirsExistOk,
          hfs1blocked, hblk]
      · exact lookupF_setF_self _ _ _
      · exact addDirChain_isdir _ _

/-- Witness for the amended C5, exercising the direct branch on a clean
store: the container entry holds the payload and no raw file appears. -/
theorem set_direct_branch_exact_witness :
    ∃ fs' es', setitem cfgS fsClean ["a", "0", "0", "1", "2"] [5] =
        SetRes.ok fs' ∧
      lookupF fs'.files (get_archive_key_name cfgS.consolidate_depth
        cfgS.container_ext (cfgS.root ++
          normKey cfgS ["a", "0", "0", "1", "2"])).1 = some (File.h5 es') ∧
      lookupE es' (get_archive_key_name cfgS.consolidate_depth
        cfgS.container_ext (cfgS.root ++
          normKey cfgS ["a", "0", "0", "1", "2"])).2 = some [5] ∧
      lookupF fs'.files (cfgS.root ++
        normKey cfgS ["a", "0", "0", "1", "2"]) = none :=
  (set_direct_branch_exact cfgS fsClean ["a", "0", "0", "1", "2"] [5]
    ⟨by decide, by decide⟩ (by decide)
    (fun _ => by decide) (fun hc => absurd hc (by decide))).1 (by decide)

/-! ## Claim C9: amended characterization -/

theorem childSizes_eq_rawSum (csz : List (String × Bytes) → Nat) (fp : Path)
    (l : List (Path × File))
    (himm : ∀ e ∈ l, isUnder e.1 fp = true →
      (e.1.length = fp.length + 1 ∧ ∃ b, e.2 = File.raw b)) :
    childSizes csz l fp =
      (l.filterMap (fun e =>
        match e.2 with
        | File.raw b => if isUnder e.1 fp then some b.length else none
        | File.h5 _ => none)).sum := by
  induction l with
  | nil => rfl
  | cons e rest ih =>
    have ih2 := ih (fun x hx hu => himm x (by simp [hx]) hu)
    obtain ⟨ep, ef⟩ := e
    unfold childSizes at ih2 ⊢
    by_cases hu : isUnder ep fp = true
    · obtain ⟨hlen, b, hb⟩ := himm (ep, ef) (by simp) hu
      have hlead : hasLead ep fp = true := by
        have h3 := hu
        unfold isUnder at h3
        rw [Bool.and_eq_true] at h3
        exact h3.2
      have hlen2 : ep.length = fp.length + 1 := hlen
      simp only at hb
      subst hb
      simp only [List.filterMap_cons]
      rw [if_pos ⟨hlen2, hlead⟩, if_pos hu]
      simp only [List.sum_cons, ih2]
    · have hu2 : isUnder ep fp = false := by
        cases hcc : isUnder ep fp
        · rfl
        · exact absurd hcc hu
      have hcond : ¬(ep.length = fp.length + 1 ∧ hasLead ep fp = true) := by
        rintro ⟨hl2, hld⟩
        have hlt : fp.length < ep.length := by omega
        unfold isUnder at hu2
        rw [hld] at hu2
        simp [hlt] at hu2
      simp only [List.filterMap_cons]
      rw [if_neg hcond]
      cases ef with
      | raw b => simpa [List.filterMap_cons, hu2] using ih2
      | h5 es => simpa [List.filterMap_cons] using ih2

/-- Claim C9 (amended): `getsize(p)` returns the byte size of the raw file
at `p` when `p` names a single file, and when `p` names a directory it
sums the sizes of the immediate children of `p` that are files only — so
it agrees with the recursive raw sum exactly on directories whose contents
all sit immediately below them as plain files.  Entries inside shard
containers are never individually sized. -/
theorem getsize_immediate (cfg : Config) (csz : List (String × Bytes) → Nat)
    (fs : FS) (p : List String) :
    (∀ b, lookupF fs.files (cfg.root ++ p) = some (File.raw b) →
      getsize cfg csz fs p = b.length) ∧
    (lookupF fs.files (cfg.root ++ p) = none →
      fs.isdir (cfg.root ++ p) = true →
      (∀ e ∈ fs.files, isUnder e.1 (cfg.root ++ p) = true →
        (e.1.length = (cfg.root ++ p).length + 1 ∧ ∃ b, e.2 = File.raw b)) →
      getsize cfg csz fs p = rawSizeUnderSpec fs (cfg.root ++ p)) := by
  constructor
  · intro b hb
    simp [getsize, hb]
  · intro hnone hdir himm
    simp only [getsize, hnone, hdir, if_true]
    exact childSizes_eq_rawSum csz (cfg.root ++ p) fs.files himm

/-- Witness for the amended C9 on the flat directory `a/0/0/1/2` of
`fsRawOnly`: `getsize` agrees with the recursive raw-file sum. -/
theorem getsize_immediate_witness :
    getsize cfgS (fun _ => 0) fsRawOnly ["a", "0", "0", "1", "2"] =
      rawSizeUnderSpec fsRawOnly ["store", "a", "0", "0", "1", "2"] :=
  (getsize_immediate cfgS (fun _ => 0) fsRawOnly ["a", "0", "0", "1", "2"]).2
    (by decide) (by decide)
    (by
      intro e he hu
      have he2 : e = (["store", "a", "0", "0", "1", "2", "3"], File.raw [1]) := by
        simpa [fsRawOnly] using he
      subst he2
      exact ⟨by decide, ⟨[1], rfl⟩⟩)

/-! ## Claims C6 and C7: the retry loops -/

theorem toh5Loop_openfail_stuck (n i : Nat) :
    toh5Loop true [1] (fun _ => false) (fun _ => none) n i = none := by
  induction n generalizing i with
  | zero => rfl
  | succ n ih => simpa [toh5Loop] using ih (i + 1)

theorem toh5Loop_mismatch_stuck (n i : Nat) :
    toh5Loop true [1] (fun _ => true) (fun _ => some [0]) n i = none := by
  induction n generalizing i with
  | zero => rfl
  | succ n ih => simpa [toh5Loop] using ih (i + 1)

theorem tofileLoop_mismatch_stuck (n i : Nat) :
    tofileLoop true [1] (fun _ => [0]) n i = none := by
  induction n generalizing i with
  | zero => rfl
  | succ n ih => simpa [tofileLoop] using ih (i + 1)

/-- Claim C6 (code-bug evaluation): when `h5py.File(archive, 'a')` fails
on the first attempt, a put with verification disabled exits after that
single attempt with the value unwritten and no error raised — zero
retries, silently dropped; and with verification enabled the loop never
exits for any retry bound at all (no fatal error is ever surfaced). -/
theorem toh5_put_silently_dropped :
    toh5Loop false [1] (fun _ => false) (fun _ => none) 1 0 = some (1, false) ∧
    ∀ n, toh5Loop true [1] (fun _ => false) (fun _ => none) n 0 = none :=
  ⟨rfl, fun n => toh5Loop_openfail_stuck n 0⟩

/-- Claim C7 (code-bug evaluation): under a persistent read-back mismatch
the write-then-verify loops of `_tofile` and `_toh5` have not exited after
`n` iterations, for every `n` — the retry is unbounded and no fatal error
is ever raised, contradicting the claimed maximum retry count. -/
theorem verify_retry_unbounded :
    (∀ n, tofileLoop true [1] (fun _ => [0]) n 0 = none) ∧
    (∀ n, toh5Loop true [1] (fun _ => true) (fun _ => some [0]) n 0 = none) :=
  ⟨fun n => tofileLoop_mismatch_stuck n 0, fun n => toh5Loop_mismatch_stuck n 0⟩

end H5NS
